import Mathlib

/-!
Verification of the xv6-lab buffer cache (kernel/bio.c) and per-core page
allocator (kernel/kalloc.c) from the 6.s081 lab repository.

The C code is shallowly embedded: the cache and allocator states are explicit
structures, each C function becomes a pure Lean function on the state, and a
panic is an Option none result.  Machine unsigned 32-bit arithmetic is modelled
on Nat with explicit reduction mod 2^32 where a wraparound could matter
(refcnt increments and decrements).  Lock acquisition order inside bget is
modelled separately as a trace of lock events so that temporal claims about
simultaneously held locks can be stated.
-/

namespace XV6

/-- Replace the element at index i by f applied to it; out-of-range indices
leave the list unchanged (the C code never goes out of range on these paths,
and the theorems carry the bound where it matters). -/
def modifyAt (l : List α) (i : Nat) (f : α → α) : List α :=
  match l, i with
  | [], _ => []
  | a :: t, 0 => f a :: t
  | a :: t, n + 1 => a :: modifyAt t n f

/-- Index of the first element satisfying p, scanning left to right, exactly
like the C for-loops over the buffer pool and the bucket array. -/
def firstIdx (p : α → Bool) : List α → Option Nat
  | [] => none
  | a :: t => if p a then some 0 else (firstIdx p t).map (· + 1)

theorem length_modifyAt (l : List α) (i : Nat) (f : α → α) :
    (modifyAt l i f).length = l.length := by
  induction l generalizing i with
  | nil => rfl
  | cons a t ih =>
    cases i with
    | zero => rfl
    | succ n => simp [modifyAt, ih]

theorem getElem?_modifyAt_self (l : List α) (i : Nat) (f : α → α) :
    (modifyAt l i f)[i]? = l[i]?.map f := by
  induction l generalizing i with
  | nil => rfl
  | cons a t ih =>
    cases i with
    | zero => simp [modifyAt]
    | succ n => simpa [modifyAt] using ih n

theorem getElem?_modifyAt_ne (l : List α) (i j : Nat) (f : α → α) (h : j ≠ i) :
    (modifyAt l i f)[j]? = l[j]? := by
  induction l generalizing i j with
  | nil => rfl
  | cons a t ih =>
    cases i with
    | zero => cases j with
      | zero => exact absurd rfl h
      | succ m => simp [modifyAt]
    | succ n => cases j with
      | zero => simp [modifyAt]
      | succ m => simpa [modifyAt] using ih n m (by omega)

theorem modifyAt_modifyAt (l : List α) (i : Nat) (f g : α → α) :
    modifyAt (modifyAt l i f) i g = modifyAt l i (fun a => g (f a)) := by
  induction l generalizing i with
  | nil => rfl
  | cons a t ih =>
    cases i with
    | zero => rfl
    | succ n => simp [modifyAt, ih]

theorem modifyAt_eq_const (l : List α) (i : Nat) (f : α → α) (b : α)
    (h : l[i]? = some b) : modifyAt l i f = modifyAt l i (fun _ => f b) := by
  induction l generalizing i with
  | nil => rfl
  | cons a t ih =>
    cases i with
    | zero => simp at h; simp [modifyAt, h]
    | succ n =>
      simp only [List.getElem?_cons_succ] at h
      simp [modifyAt, ih n h]

theorem modifyAt_const_self (l : List α) (i : Nat) (a : α) (h : l[i]? = some a) :
    modifyAt l i (fun _ => a) = l := by
  induction l generalizing i with
  | nil => simp at h
  | cons b t ih =>
    cases i with
    | zero => simp_all [modifyAt]
    | succ n =>
      simp only [List.getElem?_cons_succ] at h
      simp [modifyAt, ih n h]

theorem firstIdx_cons (p : α → Bool) (a : α) (t : List α) :
    firstIdx p (a :: t) =
      if p a then some 0 else (firstIdx p t).map (· + 1) := rfl

theorem firstIdx_some_lt {p : α → Bool} {l : List α} {i : Nat}
    (h : firstIdx p l = some i) : i < l.length := by
  induction l generalizing i with
  | nil => simp [firstIdx] at h
  | cons a t ih =>
    rw [firstIdx_cons] at h
    by_cases hp : p a
    · rw [if_pos hp] at h
      simp only [Option.some_inj] at h
      simp [← h]
    · rw [if_neg hp] at h
      cases hf : firstIdx p t with
      | none => rw [hf] at h; simp at h
      | some j =>
        rw [hf] at h
        simp only [Option.map_some', Option.some_inj] at h
        have := ih hf
        simp only [List.length_cons]
        omega

theorem firstIdx_some_sat {p : α → Bool} {l : List α} {i : Nat}
    (h : firstIdx p l = some i) : ∃ a, l[i]? = some a ∧ p a = true := by
  induction l generalizing i with
  | nil => simp [firstIdx] at h
  | cons a t ih =>
    rw [firstIdx_cons] at h
    by_cases hp : p a
    · rw [if_pos hp] at h
      simp only [Option.some_inj] at h
      exact ⟨a, by simp [← h], hp⟩
    · rw [if_neg hp] at h
      cases hf : firstIdx p t with
      | none => rw [hf] at h; simp at h
      | some j =>
        rw [hf] at h
        simp only [Option.map_some', Option.some_inj] at h
        obtain ⟨b, hb, hpb⟩ := ih hf
        exact ⟨b, by simp [← h, hb], hpb⟩

theorem firstIdx_some_min {p : α → Bool} {l : List α} {i : Nat}
    (h : firstIdx p l = some i) :
    ∀ k, k < i → ∀ a, l[k]? = some a → p a = false := by
  induction l generalizing i with
  | nil => simp [firstIdx] at h
  | cons a t ih =>
    rw [firstIdx_cons] at h
    by_cases hp : p a
    · rw [if_pos hp] at h
      simp only [Option.some_inj] at h
      omega
    · rw [if_neg hp] at h
      cases hf : firstIdx p t with
      | none => rw [hf] at h; simp at h
      | some j =>
        rw [hf] at h
        simp only [Option.map_some', Option.some_inj] at h
        intro k hk b hb
        cases k with
        | zero => simp at hb; simpa [← hb] using hp
        | succ m =>
          simp only [List.getElem?_cons_succ] at hb
          exact ih hf m (by omega) b hb

theorem firstIdx_none {p : α → Bool} {l : List α}
    (h : firstIdx p l = none) : ∀ a ∈ l, p a = false := by
  induction l with
  | nil => simp
  | cons a t ih =>
    rw [firstIdx_cons] at h
    by_cases hp : p a
    · rw [if_pos hp] at h; simp at h
    · rw [if_neg hp] at h
      simp only [Option.map_eq_none'] at h
      intro b hb
      rcases List.mem_cons.1 hb with rfl | hb
      · simpa using hp
      · exact ih h b hb

/-- Modulus of the C type uint (unsigned 32-bit). -/
def U32 : Nat := 4294967296

/-- Increment of a uint value, with wraparound. -/
def incU32 (n : Nat) : Nat := (n + 1) % U32

/-- Decrement of a uint value, with wraparound. -/
def decU32 (n : Nat) : Nat := (n + (U32 - 1)) % U32

/-- One cached disk block, struct buf of buf.h as used by bio.c: identity
(dev, blockno), validity flag, reference count, recency timestamp (the field
named time in this repository), payload (abstracted to one Nat), and the
state of its sleeplock (held tracks whether the single modelled task holds
it, standing in for holdingsleep). -/
structure Buf where
  dev : Nat
  blockno : Nat
  valid : Bool
  refcnt : Nat
  time : Nat
  data : Nat
  held : Bool
deriving Repr, DecidableEq

/-- The bcache global of bio.c: the NBUCKET single-slot shards (each stores
the pool index of the buf it references; the C code stores a pointer into
bcache.buf) and the NBUF buffer pool.  NBUCKET is bucket.length and NBUF is
buf.length. -/
structure BCache where
  bucket : List Nat
  buf : List Buf
deriving Repr, DecidableEq

/-- Key comparison b.dev == dev && b.blockno == blockno from the two lookup
loops of bget. -/
def keyMatch (dev blockno : Nat) (b : Buf) : Bool :=
  b.dev == dev && b.blockno == blockno

/-- Position of the first shard whose referenced buf matches the key: the
first loop of bget over bcache.bucket. -/
def shardHit (st : BCache) (dev blockno : Nat) : Option Nat :=
  firstIdx (fun j => ((st.buf[j]?).map (keyMatch dev blockno)).getD false)
    st.bucket

/-- Index of the first pool entry matching the key: the second loop of bget
over bcache.buf under the global lock. -/
def poolHit (st : BCache) (dev blockno : Nat) : Option Nat :=
  firstIdx (keyMatch dev blockno) st.buf

/-- Index of the first pool entry with refcnt == 0: the recycle loop of
bget. -/
def freeIdx (st : BCache) : Option Nat :=
  firstIdx (fun b => b.refcnt == 0) st.buf

/-- Hit update of bget: b->refcnt++; b->time = ticks, followed by
acquiresleep. -/
def touch (ticks : Nat) (b : Buf) : Buf :=
  { b with refcnt := incU32 b.refcnt, time := ticks, held := true }

/-- Recycle update of bget: b->dev = dev; b->blockno = blockno; b->valid = 0;
b->refcnt = 1; b->time = ticks, followed by acquiresleep. -/
def repurpose (dev blockno ticks : Nat) (b : Buf) : Buf :=
  { b with dev := dev, blockno := blockno, valid := false, refcnt := 1,
           time := ticks, held := true }

/-- The bget function of bio.c as a state transformer: fast path over the
shards, then full scan over the pool (which installs the found entry into
shard i mod NBUCKET), then the recycle path taking the first entry with
refcnt == 0; none models the panic "bget: no buffers".  The returned Nat is
the pool index of the returned buffer. -/
def bget (st : BCache) (ticks dev blockno : Nat) : Option (BCache × Nat) :=
  match shardHit st dev blockno with
  | some k =>
    let j := st.bucket.getD k 0
    some ({ st with buf := modifyAt st.buf j (touch ticks) }, j)
  | none =>
    match poolHit st dev blockno with
    | some i =>
      some ({ st with
              buf := modifyAt st.buf i (touch ticks),
              bucket := modifyAt st.bucket (i % st.bucket.length)
                (fun _ => i) }, i)
    | none =>
      match freeIdx st with
      | some i =>
        some ({ st with buf := modifyAt st.buf i (repurpose dev blockno ticks) },
              i)
      | none => none

/-- The bread function of bio.c: bget, then if the buffer is not valid fill
its payload from the disk collaborator (virtio_disk_rw with write = 0,
abstracted as the function disk) and set valid. -/
def bread (disk : Nat → Nat → Nat) (st : BCache) (ticks dev blockno : Nat) :
    Option (BCache × Nat) :=
  match bget st ticks dev blockno with
  | none => none
  | some (st2, j) =>
    match st2.buf[j]? with
    | none => none
    | some b =>
      if b.valid then some (st2, j)
      else
        some ({ st2 with
                buf := modifyAt st2.buf j
                  (fun b => { b with data := disk dev blockno,
                                     valid := true }) }, j)

/-- The bwrite function of bio.c: panic (none) unless the caller holds the
sleeplock, otherwise hand (dev, blockno, payload) to the disk collaborator
(virtio_disk_rw with write = 1); the returned triple is the disk write that
happens.  State, lock and refcnt are untouched. -/
def bwrite (st : BCache) (j : Nat) : Option (Nat × Nat × Nat) :=
  match st.buf[j]? with
  | none => none
  | some b => if b.held then some (b.dev, b.blockno, b.data) else none

/-- Per-buffer update of brelse after the holdingsleep check: releasesleep,
then under the global lock refcnt-- and, if the count reached 0, time = 0. -/
def brelseBuf (b : Buf) : Buf :=
  let r := decU32 b.refcnt
  { b with held := false, refcnt := r, time := if r == 0 then 0 else b.time }

/-- The brelse function of bio.c: panic (none) unless the caller holds the
sleeplock, otherwise apply brelseBuf to the entry. -/
def brelse (st : BCache) (j : Nat) : Option BCache :=
  match st.buf[j]? with
  | none => none
  | some b =>
    if b.held then some { st with buf := modifyAt st.buf j brelseBuf }
    else none

/-- The bpin function of bio.c: refcnt++ under the global lock. -/
def bpin (st : BCache) (j : Nat) : BCache :=
  { st with buf := modifyAt st.buf j (fun b => { b with refcnt := incU32 b.refcnt }) }

/-- The bunpin function of bio.c: refcnt-- under the global lock; the time
field is not touched. -/
def bunpin (st : BCache) (j : Nat) : BCache :=
  { st with buf := modifyAt st.buf j (fun b => { b with refcnt := decU32 b.refcnt }) }

/-- The zero-initialized struct buf of the global bcache (C statics are
zeroed), with binit additionally setting time = 0. -/
def buf0 : Buf :=
  { dev := 0, blockno := 0, valid := false, refcnt := 0, time := 0,
    data := 0, held := false }

/-- The binit function of bio.c: shard i initially references buf i, and the
pool entries are zeroed with time = 0. -/
def binit (nbucket nbuf : Nat) : BCache :=
  { bucket := List.range nbucket, buf := List.replicate nbuf buf0 }

/-- Lock operations performed by one bget call, in program order: acquire or
release of a shard spinlock, of the global bcache spinlock, and the final
acquiresleep on the returned buffer. -/
inductive LockEvent where
  | acqShard (i : Nat)
  | relShard (i : Nat)
  | acqGlobal
  | relGlobal
  | acqSleep (j : Nat)
deriving Repr, DecidableEq

/-- Set of spinlocks currently held: the global bcache lock and the list of
held shard ids. -/
structure Held where
  globalLock : Bool
  shards : List Nat
deriving Repr, DecidableEq

/-- No lock held, the state on entry to bget. -/
def noLocks : Held := { globalLock := false, shards := [] }

/-- Remove the first occurrence of i (release of one shard lock). -/
def removeFirst : List Nat → Nat → List Nat
  | [], _ => []
  | a :: t, i => if a == i then t else a :: removeFirst t i

/-- Effect of one lock event on the set of held spinlocks (the sleeplock is
not a spinlock and is not tracked). -/
def stepHeld (h : Held) : LockEvent → Held
  | .acqShard i => { h with shards := i :: h.shards }
  | .relShard i => { h with shards := removeFirst h.shards i }
  | .acqGlobal => { h with globalLock := true }
  | .relGlobal => { h with globalLock := false }
  | .acqSleep _ => h

/-- Held set after processing a whole trace. -/
def runHeld (h : Held) (tr : List LockEvent) : Held :=
  tr.foldl stepHeld h

/-- True when at some point along the trace (after some event) the global
lock and at least one shard lock are held simultaneously. -/
def anyBothHeld (h : Held) : List LockEvent → Bool
  | [] => false
  | e :: rest =>
    let h2 := stepHeld h e
    (h2.globalLock && !h2.shards.isEmpty) || anyBothHeld h2 rest

/-- True when every acquire and every release of the global lock happens with
no shard lock held: shard locks are released before the global lock is taken,
and any shard lock taken under the global lock is released before the global
lock is. -/
def cleanGlobal (h : Held) : List LockEvent → Bool
  | [] => true
  | e :: rest =>
    (match e with
     | .acqGlobal => h.shards.isEmpty
     | .relGlobal => h.shards.isEmpty
     | _ => true) && cleanGlobal (stepHeld h e) rest

/-- Acquire/release pairs of the first n shard locks, in order: the fast-path
loop of bget when the first n shards do not match. -/
def scanShards : Nat → List LockEvent
  | 0 => []
  | n + 1 => scanShards n ++ [.acqShard n, .relShard n]

/-- Lock trace of one bget call, branch by branch.  Fast path at shard k:
the first k shards are acquired and released without a match, shard k is
acquired, updated under its lock and released, then the sleeplock is taken.
Otherwise all shards are scanned, the global lock is acquired, and on a full
scan hit at pool index i the shard i mod NBUCKET is re-pointed at i while
the global lock is still held.  The recycle path touches no shard.  On pool
exhaustion bget panics still holding the global lock. -/
def bgetTrace (st : BCache) (dev blockno : Nat) : List LockEvent :=
  match shardHit st dev blockno with
  | some k =>
    scanShards k ++
      [.acqShard k, .relShard k, .acqSleep (st.bucket.getD k 0)]
  | none =>
    scanShards st.bucket.length ++ [.acqGlobal] ++
    (match poolHit st dev blockno with
     | some i =>
       [.acqShard (i % st.bucket.length), .relShard (i % st.bucket.length),
        .relGlobal, .acqSleep i]
     | none =>
       match freeIdx st with
       | some i => [.relGlobal, .acqSleep i]
       | none => [])

/-- The struct run free lists of kalloc.c: kmem[i].freelist as a stack of
page addresses, one per core (length NCPU). -/
structure KState where
  freelist : List (List Nat)
deriving Repr, DecidableEq

/-- Page size, 4096 bytes. -/
def PGSIZE : Nat := 4096

/-- Memory layout constants external to kalloc.c: the end symbol (first
address after the kernel), PHYSTOP, the per-core partition size NMEM, and
NCPU. -/
structure KConfig where
  endAddr : Nat
  PHYSTOP : Nat
  NMEM : Nat
  NCPU : Nat
deriving Repr, DecidableEq

/-- Validation at the top of kfree: panic unless pa is page-aligned, at or
above the end symbol, and below PHYSTOP. -/
def kfreeOk (cfg : KConfig) (pa : Nat) : Bool :=
  pa % PGSIZE == 0 && cfg.endAddr ≤ pa && pa < cfg.PHYSTOP

/-- Owning-core index computed by kfree: (pa - end) / NMEM. -/
def kfreeIndex (cfg : KConfig) (pa : Nat) : Nat :=
  (pa - cfg.endAddr) / cfg.NMEM

/-- The kfree function of kalloc.c: validate (none models the panic), then
push pa onto the free list of the core owning its address range.  The
callingCore argument records which core performs the free; the code never
reads it. -/
def kfree (cfg : KConfig) (st : KState) (pa : Nat) (_callingCore : Nat) :
    Option KState :=
  if kfreeOk cfg pa then
    some ⟨modifyAt st.freelist (kfreeIndex cfg pa) (fun l => pa :: l)⟩
  else none

/-- Lock-pop of the top of core i's free list, as in the fast path of kalloc:
r = kmem[i].freelist; if r, advance the list head. -/
def popCore (st : KState) (i : Nat) : Option Nat × KState :=
  match st.freelist.getD i [] with
  | [] => (none, st)
  | a :: rest => (some a, ⟨modifyAt st.freelist i (fun _ => rest)⟩)

/-- Stealing loop of kalloc: scan cores j, j+1, ... (fuel many) in order and
pop the first non-empty list. -/
def stealFrom (st : KState) (j : Nat) : Nat → Option Nat × KState
  | 0 => (none, st)
  | fuel + 1 =>
    match popCore st j with
    | (some a, st2) => (some a, st2)
    | (none, _) => stealFrom st (j + 1) fuel

/-- The kalloc function of kalloc.c for calling core c: pop the calling
core's own list; if it was empty, scan all cores from 0 in order and steal
the first non-empty top.  Returns none (the C null) with the state unchanged
when every list is empty. -/
def kalloc (st : KState) (c : Nat) : Option Nat × KState :=
  match popCore st c with
  | (some a, st2) => (some a, st2)
  | (none, _) => stealFrom st 0 st.freelist.length

/-- Well-formedness of an allocator state, established by kinit (which frees
exactly the pages of core i's partition [end + NMEM*i, end + NMEM*(i+1))
onto list i) and preserved by kalloc and kfree: every address on list i
passes kfree's validation and is owned by core i. -/
def kWf (cfg : KConfig) (st : KState) : Bool :=
  (List.range st.freelist.length).all fun i =>
    (st.freelist.getD i []).all fun a =>
      kfreeOk cfg a && (kfreeIndex cfg a == i)

theorem runHeld_append (h : Held) (a b : List LockEvent) :
    runHeld h (a ++ b) = runHeld (runHeld h a) b := by
  simp [runHeld, List.foldl_append]

theorem cleanGlobal_append (h : Held) (a b : List LockEvent) :
    cleanGlobal h (a ++ b) =
      (cleanGlobal h a && cleanGlobal (runHeld h a) b) := by
  induction a generalizing h with
  | nil => simp [cleanGlobal, runHeld]
  | cons e t ih =>
    simp only [List.cons_append, List.append_eq, cleanGlobal, ih, runHeld,
      List.foldl_cons, Bool.and_assoc]

theorem anyBothHeld_append (h : Held) (a b : List LockEvent) :
    anyBothHeld h (a ++ b) =
      (anyBothHeld h a || anyBothHeld (runHeld h a) b) := by
  induction a generalizing h with
  | nil => simp [anyBothHeld, runHeld]
  | cons e t ih =>
    simp only [List.cons_append, List.append_eq, anyBothHeld, ih, runHeld,
      List.foldl_cons, Bool.or_assoc]

theorem runHeld_scanShards (h : Held) (n : Nat) :
    runHeld h (scanShards n) = h := by
  induction n with
  | zero => rfl
  | succ n ih =>
    rw [scanShards, runHeld_append, ih]
    simp [runHeld, stepHeld, removeFirst]

theorem cleanGlobal_scanShards (h : Held) (n : Nat) :
    cleanGlobal h (scanShards n) = true := by
  induction n with
  | zero => rfl
  | succ n ih =>
    rw [scanShards, cleanGlobal_append, runHeld_scanShards, ih]
    simp [cleanGlobal, stepHeld]

theorem anyBothHeld_scanShards (h : Held) (n : Nat)
    (hg : h.globalLock = false) :
    anyBothHeld h (scanShards n) = false := by
  induction n with
  | zero => rfl
  | succ n ih =>
    rw [scanShards, anyBothHeld_append, runHeld_scanShards, ih]
    simp [anyBothHeld, stepHeld, hg]

/-- C3 counterexample: with NBUCKET = 1, NBUF = 2, entry 1 cached for block
(1, 10) but not shard-visible, bget takes the full-scan hit path and
acquires shard lock 1 mod 1 = 0 while still holding the global lock, so at
one step both a shard lock and the global lock are held simultaneously,
contradicting the claim. -/
theorem C3_shard_under_global_counterexample :
    anyBothHeld noLocks
      (bgetTrace ⟨[0], [buf0, { buf0 with dev := 1, blockno := 10 }]⟩ 1 10) =
      true := by decide

/-- C3 amended: in every execution of bget, the global lock is acquired and
released only while no shard lock is held (so every shard lock taken before
the global lock is released first, and any shard lock taken under the global
lock is released before the global lock is); however the two kinds of lock
are simultaneously held exactly on the full-scan hit path, which acquires
shard i mod NBUCKET while holding the global lock. -/
theorem C3_amended_lock_nesting :
    ∀ st dev blockno,
      cleanGlobal noLocks (bgetTrace st dev blockno) = true ∧
      (anyBothHeld noLocks (bgetTrace st dev blockno) = true →
        shardHit st dev blockno = none ∧ poolHit st dev blockno ≠ none) := by
  intro st dev blockno
  cases h1 : shardHit st dev blockno with
  | some k =>
    constructor
    · simp [bgetTrace, h1, cleanGlobal_append, cleanGlobal_scanShards,
        runHeld_scanShards, cleanGlobal, stepHeld]
    · intro hb
      exfalso
      simp [bgetTrace, h1, anyBothHeld_append, anyBothHeld_scanShards,
        runHeld_scanShards, anyBothHeld, stepHeld, noLocks] at hb
  | none =>
    cases h2 : poolHit st dev blockno with
    | some i =>
      constructor
      · simp [bgetTrace, h1, h2, cleanGlobal_append, cleanGlobal_scanShards,
          runHeld_scanShards, cleanGlobal, stepHeld, noLocks, removeFirst]
      · intro _
        exact ⟨rfl, by simp [h2]⟩
    | none =>
      cases h3 : freeIdx st with
      | some i =>
        constructor
        · simp [bgetTrace, h1, h2, h3, cleanGlobal_append,
            cleanGlobal_scanShards, runHeld_scanShards, cleanGlobal, stepHeld,
            noLocks]
        · intro hb
          exfalso
          simp [bgetTrace, h1, h2, h3, anyBothHeld_append,
            anyBothHeld_scanShards, runHeld_scanShards, anyBothHeld, stepHeld,
            noLocks] at hb
      | none =>
        constructor
        · simp [bgetTrace, h1, h2, h3, cleanGlobal_append,
            cleanGlobal_scanShards, runHeld_scanShards, cleanGlobal, stepHeld,
            noLocks]
        · intro hb
          exfalso
          simp [bgetTrace, h1, h2, h3, anyBothHeld_append,
            anyBothHeld_scanShards, runHeld_scanShards, anyBothHeld, stepHeld,
            noLocks] at hb

/-- Witness for the amended C3: the full-scan hit trace of the C3
counterexample state satisfies the nesting discipline, and since both locks
are held at one of its steps, that execution is a full-scan hit. -/
theorem C3_amended_lock_nesting_witness :
    cleanGlobal noLocks
      (bgetTrace ⟨[0], [buf0, { buf0 with dev := 1, blockno := 10 }]⟩ 1 10) =
      true ∧
    (shardHit ⟨[0], [buf0, { buf0 with dev := 1, blockno := 10 }]⟩ 1 10 = none ∧
     poolHit ⟨[0], [buf0, { buf0 with dev := 1, blockno := 10 }]⟩ 1 10 ≠ none) :=
  ⟨(C3_amended_lock_nesting
      ⟨[0], [buf0, { buf0 with dev := 1, blockno := 10 }]⟩ 1 10).1,
   (C3_amended_lock_nesting
      ⟨[0], [buf0, { buf0 with dev := 1, blockno := 10 }]⟩ 1 10).2 (by decide)⟩

/-- C1: when no cached entry matches the key, the recycle path of bget takes
the first pool entry in index order whose refcnt is 0 and repurposes it
(dev, blockno, valid = false, refcnt = 1, time = ticks), leaving the shards
untouched; and the choice is by pool order, not by smallest time: there is a
state in which the selected entry does not have the smallest time among the
free entries. -/
theorem C1_recycle_first_free :
    (∀ st ticks dev blockno i,
      shardHit st dev blockno = none →
      poolHit st dev blockno = none →
      freeIdx st = some i →
      ∃ b, st.buf[i]? = some b ∧ b.refcnt = 0 ∧
        bget st ticks dev blockno =
          some ({ st with buf := modifyAt st.buf i (fun _ =>
            { dev := dev, blockno := blockno, valid := false, refcnt := 1,
              time := ticks, data := b.data, held := true }) }, i) ∧
        ∀ k c, k < i → st.buf[k]? = some c → c.refcnt ≠ 0) ∧
    (∃ (st : BCache) (dev blockno i j : Nat) (bi bj : Buf),
      shardHit st dev blockno = none ∧ poolHit st dev blockno = none ∧
      freeIdx st = some i ∧
      st.buf[i]? = some bi ∧ st.buf[j]? = some bj ∧
      bj.refcnt = 0 ∧ bj.time < bi.time) := by
  constructor
  · intro st ticks dev blockno i h1 h2 h3
    simp only [freeIdx] at h3
    obtain ⟨b, hb, hpb⟩ := firstIdx_some_sat h3
    have hb0 : b.refcnt = 0 := by simpa using hpb
    refine ⟨b, hb, hb0, ?_, ?_⟩
    · have heq : bget st ticks dev blockno =
          some ({ st with buf := modifyAt st.buf i (repurpose dev blockno ticks) }, i) := by
        simp only [bget, h1, h2, freeIdx, h3]
      rw [heq, modifyAt_eq_const st.buf i _ b hb]
      rfl
    · intro k c hk hc
      have := firstIdx_some_min h3 k hk c hc
      simpa using this
  · refine ⟨⟨[0], [{ buf0 with time := 5 }, { buf0 with time := 3 }]⟩,
      1, 10, 0, 1, { buf0 with time := 5 }, { buf0 with time := 3 },
      by decide, by decide, by decide, by decide, by decide, by decide, by decide⟩

/-- Witness for C1: on the freshly initialized cache with NBUCKET = 1 and
NBUF = 2, a request for block (1, 10) misses everywhere and repurposes pool
entry 0. -/
theorem C1_recycle_first_free_witness :
    shardHit (binit 1 2) 1 10 = none ∧ poolHit (binit 1 2) 1 10 = none ∧
    freeIdx (binit 1 2) = some 0 ∧
    (∃ b, (binit 1 2).buf[0]? = some b ∧ b.refcnt = 0 ∧
      bget (binit 1 2) 7 1 10 =
        some ({ binit 1 2 with buf := modifyAt (binit 1 2).buf 0 (fun _ =>
          { dev := 1, blockno := 10, valid := false, refcnt := 1,
            time := 7, data := b.data, held := true }) }, 0) ∧
      ∀ k c, k < 0 → (binit 1 2).buf[k]? = some c → c.refcnt ≠ 0) :=
  ⟨by decide, by decide, by decide,
    C1_recycle_first_free.1 (binit 1 2) 7 1 10 0 (by decide) (by decide)
      (by decide)⟩

/-- C2 counterexample: the claim that every ref_count decrement reaching 0
resets last_access fails on bunpin.  From the initial cache (NBUCKET = 1,
NBUF = 2), bget at ticks = 7 repurposes entry 0 with refcnt = 1 and
time = 7; the subsequent bunpin drops refcnt to 0 but leaves time = 7, so a
reachable state has an entry with refcnt = 0 and last_access different from
0. -/
theorem C2_bunpin_keeps_time_counterexample :
    ((bget (binit 1 2) 7 1 10).bind fun p => (bunpin p.1 p.2).buf[p.2]?) =
      some { dev := 1, blockno := 10, valid := false, refcnt := 0, time := 7,
             data := 0, held := true } := by decide

/-- C2 amended: brelse resets last_access to 0 exactly when its decrement
makes refcnt reach 0, while bunpin decrements refcnt and never changes
last_access; the claimed invariant (refcnt = 0 implies last_access = 0)
therefore holds only along brelse, not along bunpin. -/
theorem C2_brelse_resets_bunpin_does_not :
    (∀ st j b, st.buf[j]? = some b → b.held = true →
      brelse st j = some { st with buf := modifyAt st.buf j brelseBuf } ∧
      (decU32 b.refcnt = 0 → (brelseBuf b).time = 0) ∧
      (decU32 b.refcnt ≠ 0 → (brelseBuf b).time = b.time)) ∧
    (∀ st j,
      ((bunpin st j).buf[j]?).map Buf.time = (st.buf[j]?).map Buf.time ∧
      ((bunpin st j).buf[j]?).map Buf.refcnt =
        (st.buf[j]?).map (fun b => decU32 b.refcnt)) := by
  constructor
  · intro st j b hb hheld
    refine ⟨by simp [brelse, hb, hheld], ?_, ?_⟩
    · intro h0
      simp [brelseBuf, h0]
    · intro h0
      simp [brelseBuf, h0]
  · intro st j
    cases h : st.buf[j]? with
    | none => simp [bunpin, getElem?_modifyAt_self, h]
    | some b => simp [bunpin, getElem?_modifyAt_self, h]

/-- Witness for the amended C2: on a singleton pool holding a locked entry
with refcnt = 1 and time = 9, brelse releases and resets time to 0. -/
theorem C2_brelse_resets_bunpin_does_not_witness :
    brelse ⟨[0], [{ buf0 with refcnt := 1, time := 9, held := true }]⟩ 0 =
      some ⟨[0], [{ buf0 with refcnt := 0, time := 0, held := false }]⟩ ∧
    decU32 1 = 0 ∧
    (brelseBuf { buf0 with refcnt := 1, time := 9, held := true }).time = 0 := by
  have h := (C2_brelse_resets_bunpin_does_not.1
    ⟨[0], [{ buf0 with refcnt := 1, time := 9, held := true }]⟩ 0
    { buf0 with refcnt := 1, time := 9, held := true } (by decide) (by decide))
  refine ⟨?_, by decide, h.2.1 (by decide)⟩
  rw [h.1]
  decide

/-- C4: whenever bread returns, the returned entry is valid: bread calls
bget and, if the entry's valid flag is false, fills the payload from the
disk collaborator and sets valid = true before returning. -/
theorem C4_bread_returns_valid :
    ∀ disk st ticks dev blockno st2 j,
      bread disk st ticks dev blockno = some (st2, j) →
      ∃ b, st2.buf[j]? = some b ∧ b.valid = true := by
  intro disk st ticks dev blockno st2 j h
  cases hg : bget st ticks dev blockno with
  | none => simp [bread, hg] at h
  | some p =>
    obtain ⟨st1, j1⟩ := p
    simp only [bread, hg] at h
    cases hb : st1.buf[j1]? with
    | none => simp [hb] at h
    | some b =>
      simp only [hb] at h
      by_cases hv : b.valid = true
      · rw [if_pos hv] at h
        simp only [Option.some_inj, Prod.mk.injEq] at h
        obtain ⟨rfl, rfl⟩ := h
        exact ⟨b, hb, hv⟩
      · rw [if_neg hv] at h
        simp only [Option.some_inj, Prod.mk.injEq] at h
        obtain ⟨hst, hj⟩ := h
        subst hj
        rw [← hst]
        refine ⟨{ b with data := disk dev blockno, valid := true }, ?_, rfl⟩
        simp [getElem?_modifyAt_self, hb]

/-- Witness for C4: a concrete bread on the freshly initialized cache misses,
recycles entry 0 with valid = false, fills it from the disk collaborator and
returns it valid. -/
theorem C4_bread_returns_valid_witness :
    bread (fun _ _ => 42) (binit 1 2) 7 1 10 =
      some (⟨[0], [{ dev := 1, blockno := 10, valid := true, refcnt := 1,
                     time := 7, data := 42, held := true }, buf0]⟩, 0) ∧
    ∃ b, (⟨[0], [{ dev := 1, blockno := 10, valid := true, refcnt := 1,
                   time := 7, data := 42, held := true }, buf0]⟩ :
        BCache).buf[0]? = some b ∧ b.valid = true :=
  ⟨by decide,
   C4_bread_returns_valid (fun _ _ => 42) (binit 1 2) 7 1 10 _ 0 (by decide)⟩

/-- C10: the recycle (miss) path of bget leaves every shard unchanged, and
the fast path does too; only the full-scan hit path modifies a shard, where
it installs the found pool index i into shard i mod NBUCKET and leaves all
other shards unchanged. -/
theorem C10_miss_path_shard_frame :
    (∀ st ticks dev blockno st2 j,
      shardHit st dev blockno = none → poolHit st dev blockno = none →
      bget st ticks dev blockno = some (st2, j) → st2.bucket = st.bucket) ∧
    (∀ st ticks dev blockno i,
      shardHit st dev blockno = none → poolHit st dev blockno = some i →
      ∃ st2, bget st ticks dev blockno = some (st2, i) ∧
        st2.bucket = modifyAt st.bucket (i % st.bucket.length) (fun _ => i) ∧
        ∀ k, k ≠ i % st.bucket.length → st2.bucket[k]? = st.bucket[k]?) ∧
    (∀ st ticks dev blockno k,
      shardHit st dev blockno = some k →
      ∃ st2 j, bget st ticks dev blockno = some (st2, j) ∧
        st2.bucket = st.bucket) := by
  refine ⟨?_, ?_, ?_⟩
  · intro st ticks dev blockno st2 j h1 h2 h
    simp only [bget, h1, h2] at h
    cases h3 : freeIdx st with
    | none => simp [h3] at h
    | some i =>
      simp only [h3, Option.some_inj, Prod.mk.injEq] at h
      obtain ⟨hst, hj⟩ := h
      rw [← hst]
  · intro st ticks dev blockno i h1 h2
    refine ⟨⟨modifyAt st.bucket (i % st.bucket.length) (fun _ => i),
             modifyAt st.buf i (touch ticks)⟩, ?_, rfl, ?_⟩
    · simp only [bget, h1, h2]
    · intro k hk
      exact getElem?_modifyAt_ne _ _ _ _ hk
  · intro st ticks dev blockno k h1
    refine ⟨⟨st.bucket, modifyAt st.buf (st.bucket.getD k 0) (touch ticks)⟩,
      st.bucket.getD k 0, ?_, rfl⟩
    simp only [bget, h1]

/-- Witness for C10: on the state of the C3 analysis (entry 1 caches block
(1, 10) but no shard references it), the full-scan hit installs index 1 into
shard 1 mod 1 = 0. -/
theorem C10_miss_path_shard_frame_witness :
    ∃ st2, bget ⟨[0], [buf0, { buf0 with dev := 1, blockno := 10 }]⟩ 7 1 10 =
        some (st2, 1) ∧
      st2.bucket =
        modifyAt (⟨[0], [buf0, { buf0 with dev := 1, blockno := 10 }]⟩ :
          BCache).bucket (1 % 1) (fun _ => 1) ∧
      ∀ k, k ≠ 1 % 1 →
        st2.bucket[k]? =
          (⟨[0], [buf0, { buf0 with dev := 1, blockno := 10 }]⟩ :
            BCache).bucket[k]? :=
  C10_miss_path_shard_frame.2.1
    ⟨[0], [buf0, { buf0 with dev := 1, blockno := 10 }]⟩ 7 1 10 1
    (by decide) (by decide)

theorem kWf_spec {cfg : KConfig} {st : KState} (h : kWf cfg st = true) :
    ∀ i l, st.freelist[i]? = some l → ∀ a ∈ l,
      kfreeOk cfg a = true ∧ kfreeIndex cfg a = i := by
  intro i l hl a ha
  have hi : i < st.freelist.length := by
    by_contra hge
    rw [List.getElem?_eq_none (by omega)] at hl
    exact Option.noConfusion hl
  have h1 := (List.all_eq_true.1 h) i (List.mem_range.2 hi)
  rw [List.getD_eq_getElem?_getD, hl] at h1
  have h2 := (List.all_eq_true.1 h1) a ha
  simp only [Bool.and_eq_true, beq_iff_eq] at h2
  exact h2

theorem popCore_none {st : KState} {i : Nat} {r : Option Nat} {st2 : KState}
    (h : popCore st i = (r, st2)) (hr : r = none) :
    st.freelist.getD i [] = [] ∧ st2 = st := by
  subst hr
  unfold popCore at h
  cases hl : st.freelist.getD i [] with
  | nil => rw [hl] at h; exact ⟨rfl, (Prod.mk.injEq _ _ _ _ ▸ h).2.symm⟩
  | cons a rest => rw [hl] at h; simp at h

theorem popCore_some {st : KState} {i a : Nat} {st2 : KState}
    (h : popCore st i = (some a, st2)) :
    ∃ rest, st.freelist[i]? = some (a :: rest) ∧
      st2 = ⟨modifyAt st.freelist i (fun _ => rest)⟩ := by
  unfold popCore at h
  cases hl : st.freelist.getD i [] with
  | nil => rw [hl] at h; simp at h
  | cons b rest =>
    rw [hl] at h
    simp only [Prod.mk.injEq, Option.some_inj] at h
    obtain ⟨hba, hst⟩ := h
    subst hba
    have hi : i < st.freelist.length := by
      by_contra hge
      rw [List.getD_eq_getElem?_getD, List.getElem?_eq_none (by omega)] at hl
      simp at hl
    rw [List.getD_eq_getElem?_getD] at hl
    cases hsome : st.freelist[i]? with
    | none => rw [hsome] at hl; simp at hl
    | some l =>
      rw [hsome] at hl
      simp only [Option.getD_some] at hl
      exact ⟨rest, congrArg some hl, hst.symm⟩

theorem stealFrom_some {st : KState} {j fuel a : Nat} {st2 : KState}
    (h : stealFrom st j fuel = (some a, st2)) :
    ∃ k rest, j ≤ k ∧ k < j + fuel ∧
      (∀ m, j ≤ m → m < k → st.freelist.getD m [] = []) ∧
      st.freelist[k]? = some (a :: rest) ∧
      st2 = ⟨modifyAt st.freelist k (fun _ => rest)⟩ := by
  induction fuel generalizing j with
  | zero => simp [stealFrom] at h
  | succ fuel ih =>
    unfold stealFrom at h
    cases hp : popCore st j with
    | mk r st3 =>
      cases r with
      | some b =>
        rw [hp] at h
        simp only [Prod.mk.injEq, Option.some_inj] at h
        obtain ⟨hba, hst⟩ := h
        subst hba
        subst hst
        obtain ⟨rest, hl, hst⟩ := popCore_some hp
        exact ⟨j, rest, le_refl j, by omega, by omega, hl, hst⟩
      | none =>
        rw [hp] at h
        obtain ⟨k, rest, hjk, hk, hemp, hl, hst⟩ := ih h
        obtain ⟨hempty, _⟩ := popCore_none hp rfl
        refine ⟨k, rest, by omega, by omega, ?_, hl, hst⟩
        intro m hm1 hm2
        rcases Nat.eq_or_lt_of_le hm1 with rfl | hlt
        · exact hempty
        · exact hemp m hlt hm2

theorem stealFrom_none {st : KState} {j fuel : Nat} {st2 : KState}
    (h : stealFrom st j fuel = (none, st2)) :
    st2 = st ∧ ∀ m, j ≤ m → m < j + fuel → st.freelist.getD m [] = [] := by
  induction fuel generalizing j with
  | zero =>
    simp only [stealFrom, Prod.mk.injEq] at h
    exact ⟨h.2.symm, by omega⟩
  | succ fuel ih =>
    unfold stealFrom at h
    cases hp : popCore st j with
    | mk r st3 =>
      cases r with
      | some b => rw [hp] at h; simp at h
      | none =>
        rw [hp] at h
        obtain ⟨hst, hemp⟩ := ih h
        obtain ⟨hempty, _⟩ := popCore_none hp rfl
        refine ⟨hst, ?_⟩
        intro m hm1 hm2
        rcases Nat.eq_or_lt_of_le hm1 with rfl | hlt
        · exact hempty
        · exact hemp m hlt (by omega)

theorem stealFrom_of_all_empty {st : KState} {j fuel : Nat}
    (h : ∀ m, j ≤ m → m < j + fuel → st.freelist.getD m [] = []) :
    stealFrom st j fuel = (none, st) := by
  induction fuel generalizing j with
  | zero => rfl
  | succ fuel ih =>
    have hj : st.freelist.getD j [] = [] := h j (le_refl j) (by omega)
    unfold stealFrom popCore
    rw [hj]
    exact ih fun m hm1 hm2 => h m (by omega) (by omega)

/-- C5: kfree computes the owning core from the address offset,
(pa - end) / NMEM, and pushes the page onto that core's free list,
unchanged for every other core's list and independent of which core
performs the free. -/
theorem C5_kfree_address_affinity :
    ∀ cfg st pa c, kfreeOk cfg pa = true →
      kfree cfg st pa c =
        some ⟨modifyAt st.freelist (kfreeIndex cfg pa) (fun l => pa :: l)⟩ ∧
      kfreeIndex cfg pa = (pa - cfg.endAddr) / cfg.NMEM ∧
      (∀ c2, kfree cfg st pa c = kfree cfg st pa c2) ∧
      (∀ k, k ≠ kfreeIndex cfg pa →
        (modifyAt st.freelist (kfreeIndex cfg pa) (fun l => pa :: l))[k]? =
          st.freelist[k]?) := by
  intro cfg st pa c hok
  exact ⟨by simp [kfree, hok], rfl, fun c2 => rfl,
    fun k hk => getElem?_modifyAt_ne _ _ _ _ hk⟩

/-- Witness for C5: freeing page 4096 with partitions of 4096 bytes from
address 0 pushes it onto core 1's list. -/
theorem C5_kfree_address_affinity_witness :
    kfreeOk ⟨0, 8192, 4096, 2⟩ 4096 = true ∧
    kfree ⟨0, 8192, 4096, 2⟩ ⟨[[], []]⟩ 4096 0 =
      some ⟨modifyAt ([[], []] : List (List Nat))
        (kfreeIndex ⟨0, 8192, 4096, 2⟩ 4096) (fun l => 4096 :: l)⟩ :=
  ⟨by decide,
   (C5_kfree_address_affinity ⟨0, 8192, 4096, 2⟩ ⟨[[], []]⟩ 4096 0
      (by decide)).1⟩

/-- C7: kalloc returns none exactly when its own pop found the calling
core's list empty and the fixed-order fallback scan found every core's list
empty, that is, exactly when every free list is empty; the none result comes
with the state unchanged, and the return type shows it is an ordinary value
handed back to the caller, not a panic. -/
theorem C7_kalloc_none_iff_all_empty :
    ∀ st c,
      ((kalloc st c).1 = none ↔ ∀ l ∈ st.freelist, l = []) ∧
      ((kalloc st c).1 = none → (kalloc st c).2 = st) := by
  intro st c
  cases hp : popCore st c with
  | mk r st3 =>
    cases r with
    | some a =>
      obtain ⟨rest, hl, _⟩ := popCore_some hp
      constructor
      · constructor
        · intro h
          simp [kalloc, hp] at h
        · intro h
          have : (a :: rest) = [] := h _ (List.mem_iff_getElem?.2 ⟨c, hl⟩)
          simp at this
      · intro h
        simp [kalloc, hp] at h
    | none =>
      have hk : kalloc st c = stealFrom st 0 st.freelist.length := by
        simp [kalloc, hp]
      rw [hk]
      cases hs : stealFrom st 0 st.freelist.length with
      | mk r2 st4 =>
        cases r2 with
        | some a =>
          obtain ⟨k, rest, _, _, _, hl, _⟩ := stealFrom_some hs
          constructor
          · constructor
            · intro h; simp at h
            · intro h
              have : (a :: rest) = [] := h _ (List.mem_iff_getElem?.2 ⟨k, hl⟩)
              simp at this
          · intro h; simp at h
        | none =>
          obtain ⟨hst, hemp⟩ := stealFrom_none hs
          subst hst
          constructor
          · constructor
            · intro _ l hl
              obtain ⟨m, hm⟩ := List.mem_iff_getElem?.1 hl
              have hmlt : m < st4.freelist.length := by
                by_contra hge
                rw [List.getElem?_eq_none (by omega)] at hm
                exact Option.noConfusion hm
              have := hemp m (by omega) (by omega)
              rw [List.getD_eq_getElem?_getD, hm] at this
              simpa using this
            · intro _; rfl
          · intro _; rfl

/-- Witness for C7: with both free lists empty, kalloc returns none. -/
theorem C7_kalloc_none_iff_all_empty_witness :
    (kalloc ⟨[[], []]⟩ 0).1 = none :=
  (C7_kalloc_none_iff_all_empty ⟨[[], []]⟩ 0).1.mpr (by decide)

/-- C8: protocol misuse is fatal before any effect: bwrite and brelse panic
(none, so no disk write, no lock release and no refcnt change happens) when
the caller does not hold the entry's sleeplock, and kfree panics (none, so no
free list is modified) when the address fails validation (misaligned, below
the end symbol, or at or above PHYSTOP). -/
theorem C8_misuse_is_fatal :
    (∀ st j b, st.buf[j]? = some b → b.held = false → bwrite st j = none) ∧
    (∀ st j b, st.buf[j]? = some b → b.held = false → brelse st j = none) ∧
    (∀ cfg st pa c, kfreeOk cfg pa = false → kfree cfg st pa c = none) := by
  refine ⟨?_, ?_, ?_⟩
  · intro st j b hb hheld
    simp [bwrite, hb, hheld]
  · intro st j b hb hheld
    simp [brelse, hb, hheld]
  · intro cfg st pa c hok
    simp [kfree, hok]

/-- Witness for C8: writing or releasing an unheld buffer panics, and
freeing the misaligned address 12345 panics. -/
theorem C8_misuse_is_fatal_witness :
    bwrite ⟨[0], [buf0]⟩ 0 = none ∧ brelse ⟨[0], [buf0]⟩ 0 = none ∧
    kfree ⟨0, 8192, 4096, 2⟩ ⟨[[], []]⟩ 12345 0 = none :=
  ⟨C8_misuse_is_fatal.1 ⟨[0], [buf0]⟩ 0 buf0 (by decide) (by decide),
   C8_misuse_is_fatal.2.1 ⟨[0], [buf0]⟩ 0 buf0 (by decide) (by decide),
   C8_misuse_is_fatal.2.2 ⟨0, 8192, 4096, 2⟩ ⟨[[], []]⟩ 12345 0 (by decide)⟩

/-- C6: on an otherwise-idle allocator in a well-formed state (every listed
address valid and owned by its list, as established by kinit), if kalloc on
core c returns page p, then kfree of p from any core restores exactly the
pre-allocation state, with p back on top of the free list of the core owning
its address range, and kalloc on core c again returns p with the same
post-state (stack reuse). -/
theorem C6_alloc_free_roundtrip :
    ∀ cfg st c c2 p st1,
      kWf cfg st = true →
      kalloc st c = (some p, st1) →
      kfree cfg st1 p c2 = some st ∧
      (st.freelist.getD (kfreeIndex cfg p) []).head? = some p ∧
      kalloc st c = (some p, st1) := by
  intro cfg st c c2 p st1 hwf hal
  cases hp : popCore st c with
  | mk r st3 =>
    cases r with
    | some a =>
      simp only [kalloc, hp, Prod.mk.injEq, Option.some_inj] at hal
      obtain ⟨hap, hst⟩ := hal
      rw [hap, hst] at hp
      obtain ⟨rest, hl, hst1⟩ := popCore_some hp
      obtain ⟨hok, hidx⟩ := kWf_spec hwf c (p :: rest) hl p (by simp)
      refine ⟨?_, ?_, ?_⟩
      · rw [hst1]
        have hml : modifyAt (modifyAt st.freelist c (fun _ => rest)) c
            (fun l => p :: l) = st.freelist := by
          rw [modifyAt_modifyAt]
          exact modifyAt_const_self _ _ _ hl
        simp only [kfree, hok, if_true, hidx]
        rw [hml]
      · rw [hidx, List.getD_eq_getElem?_getD, hl]
        rfl
      · simp only [kalloc, hp]
    | none =>
      simp only [kalloc, hp] at hal
      obtain ⟨k, rest, _, hklt, hemp, hl, hst1⟩ := stealFrom_some hal
      obtain ⟨hok, hidx⟩ := kWf_spec hwf k (p :: rest) hl p (by simp)
      refine ⟨?_, ?_, ?_⟩
      · rw [hst1]
        have hml : modifyAt (modifyAt st.freelist k (fun _ => rest)) k
            (fun l => p :: l) = st.freelist := by
          rw [modifyAt_modifyAt]
          exact modifyAt_const_self _ _ _ hl
        simp only [kfree, hok, if_true, hidx]
        rw [hml]
      · rw [hidx, List.getD_eq_getElem?_getD, hl]
        rfl
      · simp only [kalloc, hp]
        exact hal

/-- Witness for C6: with core partitions of 4096 bytes starting at 0, core 0
allocates its own page 0; freeing it from core 1 restores the initial state
and core 0 can allocate it again. -/
theorem C6_alloc_free_roundtrip_witness :
    kWf ⟨0, 8192, 4096, 2⟩ ⟨[[0], [4096]]⟩ = true ∧
    (kfree ⟨0, 8192, 4096, 2⟩ ⟨[[], [4096]]⟩ 0 1 =
        some ⟨[[0], [4096]]⟩ ∧
      ((⟨[[0], [4096]]⟩ : KState).freelist.getD
          (kfreeIndex ⟨0, 8192, 4096, 2⟩ 0) []).head? = some 0 ∧
      kalloc ⟨[[0], [4096]]⟩ 0 = (some 0, ⟨[[], [4096]]⟩)) :=
  ⟨by decide,
   C6_alloc_free_roundtrip ⟨0, 8192, 4096, 2⟩ ⟨[[0], [4096]]⟩ 0 1 0
     ⟨[[], [4096]]⟩ (by decide) (by decide)⟩

/-- C9: for every address passing kfree's validation the owning-core index
(pa - end) / NMEM stays below NCPU provided PHYSTOP does not exceed
end + NCPU * NMEM; the code contains no such check, and without that side
condition the bound genuinely fails: a configuration exists whose validated
address maps to an index at or beyond NCPU. -/
theorem C9_kfree_index_bound :
    (∀ cfg pa, 0 < cfg.NMEM →
      cfg.PHYSTOP ≤ cfg.endAddr + cfg.NCPU * cfg.NMEM →
      kfreeOk cfg pa = true → kfreeIndex cfg pa < cfg.NCPU) ∧
    (∃ cfg pa, kfreeOk cfg pa = true ∧ ¬ kfreeIndex cfg pa < cfg.NCPU) := by
  constructor
  · intro cfg pa hm htop hok
    have h1 : pa % PGSIZE = 0 ∧ cfg.endAddr ≤ pa ∧ pa < cfg.PHYSTOP := by
      simpa [kfreeOk, and_assoc] using hok
    unfold kfreeIndex
    rw [Nat.div_lt_iff_lt_mul hm]
    omega
  · exact ⟨⟨0, 8192, 4096, 1⟩, 4096, by decide, by decide⟩

/-- Witness for C9: with end = 0, PHYSTOP = 8192, NMEM = 4096, NCPU = 2 the
bound PHYSTOP ≤ end + NCPU * NMEM holds and page 4096 maps to index 1 < 2. -/
theorem C9_kfree_index_bound_witness :
    kfreeOk ⟨0, 8192, 4096, 2⟩ 4096 = true ∧
    kfreeIndex ⟨0, 8192, 4096, 2⟩ 4096 < 2 :=
  ⟨by decide,
   C9_kfree_index_bound.1 ⟨0, 8192, 4096, 2⟩ 4096 (by decide) (by decide)
     (by decide)⟩

end XV6
